import Mathlib

/-!
# Verification of the expense-sharing balance engine (`src/server.js`)

Shallow embedding of the balance-netting and statistics logic of
`src/server.js`.  User identifiers (Mongo ObjectIds compared via
`toString()`) are modelled as natural numbers; currency amounts
(JS `Number`) are modelled as exact rationals `ℚ` (the netting
arithmetic is sign-symmetric, so the sign/structure claims are
float-independent).

The nested JavaScript object `balances` — an object of objects with
insertion-ordered string keys — is modelled as an association list of
association lists, with JS key-iteration order (insertion order for
non-numeric string keys) preserved: assigning an existing key keeps its
position, assigning a fresh key appends it.
-/

/-! ## Definitions -/

/-- An expense record, after `populate`: `paidBy` and `participants` are
user ids; `date` is reduced to the `(year, month)` pair that the stats
pipeline extracts via `$year` / `$month`. -/
structure Expense where
  amount : ℚ
  paidBy : Nat
  participants : List Nat
  year : Nat
  month : Nat
  deriving DecidableEq, Repr

/-- Inner JS object: counterparty id ↦ accumulated signed amount,
in key-insertion order. -/
abbrev Row := List (Nat × ℚ)

/-- Outer JS object `balances`: user id ↦ row, in key-insertion order. -/
abbrev Balances := List (Nat × Row)

/-- JS property read `row[k]`: `undefined` is `none`. -/
def rowGet : Row → Nat → Option ℚ
  | [], _ => none
  | (k, v) :: r, j => if k = j then some v else rowGet r j

/-- JS property write `row[k] = v`: update in place if the key exists,
else append it. -/
def rowSet : Row → Nat → ℚ → Row
  | [], j, v => [(j, v)]
  | (k, w) :: r, j, v => if k = j then (j, v) :: r else (k, w) :: rowSet r j v

/-- JS property read `balances[i]`. -/
def getRow : Balances → Nat → Option Row
  | [], _ => none
  | (k, r) :: b, i => if k = i then some r else getRow b i

/-- JS property write `balances[i] = r`. -/
def setRow : Balances → Nat → Row → Balances
  | [], i, r => [(i, r)]
  | (k, w) :: b, i, r => if k = i then (i, r) :: b else (k, w) :: setRow b i r

/-- Read of `balances[i][j]`, giving `none` when row or cell is absent. -/
def getCell (b : Balances) (i j : Nat) : Option ℚ :=
  (getRow b i).bind (fun r => rowGet r j)

/-- Cell update: ensure row `i` exists, then add `v` onto cell
`balances[i][j]`, treating a missing cell as 0 (server.js lines 126–127). -/
def addToCell (b : Balances) (i j : Nat) (v : ℚ) : Balances :=
  let row := (getRow b i).getD []
  setRow b i (rowSet row j ((rowGet row j).getD 0 + v))

/-- The body of the participant loop for one participant `p` with payer
`payer` and share `s` (server.js lines 125–128): participant owes payer
`+s`, payer accrues `-s` toward the participant; the self pair is skipped. -/
def updatePair (b : Balances) (p payer : Nat) (s : ℚ) : Balances :=
  if payer ≠ p then addToCell (addToCell b p payer s) payer p (-s) else b

/-- Accumulation of one expense (server.js lines 122–130):
`amountPerPerson = amount / participants.length`, then the participant
loop. -/
def processExpense (b : Balances) (e : Expense) : Balances :=
  let s := e.amount / (e.participants.length : ℚ)
  e.participants.foldl (fun b p => updatePair b p e.paidBy s) b

/-- The whole accumulation phase over the fetched expense list. -/
def accumulate (es : List Expense) : Balances :=
  es.foldl processExpense []

/-- One element of `formattedBalances`: `owes = true` renders as
You-owe-user, `owes = false` as You-are-owed-by-user. -/
structure Entry where
  owes : Bool
  amount : ℚ
  user : Nat
  deriving DecidableEq, Repr

/-- The counterparty user-object lookup (server.js lines 134 / 141):
`expenses.find(e => e.paidBy == other || other ∈ e.participants)
  .participants.find(p => p == other) || expenses.find(e => e.paidBy == other).paidBy`.
`none` models the `TypeError` thrown when a `.find` returns `undefined`
and is then dereferenced. -/
def lookupUser (es : List Expense) (other : Nat) : Option Nat :=
  match es.find? (fun e => e.paidBy == other || e.participants.contains other) with
  | none => none
  | some a =>
    match a.participants.find? (fun p => p == other) with
    | some p => some p
    | none =>
      match es.find? (fun e => e.paidBy == other) with
      | none => none
      | some b => some b.paidBy

/-- First output loop (server.js lines 132–137): iterate
`Object.keys(balances[userId] || {})`, emit `{owes: true}` entries for
positive cells.  `none` models a thrown lookup. -/
def loop1 (es : List Expense) : Row → Option (List Entry)
  | [] => some []
  | (other, amt) :: rest =>
    if 0 < amt then
      match lookupUser es other with
      | none => none
      | some u => (loop1 es rest).map (fun l => ⟨true, amt, u⟩ :: l)
    else loop1 es rest

/-- JS truthiness of `balances[other][userId]`: present and nonzero. -/
def truthyCell (r : Row) (u : Nat) : Bool :=
  match rowGet r u with
  | some v => v != 0
  | none => false

/-- Second output loop (server.js lines 138–145): iterate
`Object.keys(balances)`, for `other ≠ userId` with a truthy
`balances[other][userId]`, set `amount = -balances[other][userId]` and
emit `{owes: false}` when positive. -/
def loop2 (es : List Expense) (userId : Nat) : Balances → Option (List Entry)
  | [] => some []
  | (other, row) :: rest =>
    if other ≠ userId ∧ truthyCell row userId then
      let amt := -((rowGet row userId).getD 0)
      if 0 < amt then
        match lookupUser es other with
        | none => none
        | some u => (loop2 es userId rest).map (fun l => ⟨false, amt, u⟩ :: l)
      else loop2 es userId rest
    else loop2 es userId rest

/-- The `GET /api/balance` computation over a given expense list for the
requesting user (server.js lines 117–148): accumulate, then the two
output loops in order.  `none` models a thrown `TypeError` (HTTP 500). -/
def computeBalance (es : List Expense) (userId : Nat) : Option (List Entry) :=
  match loop1 es ((getRow (accumulate es) userId).getD []),
      loop2 es userId (accumulate es) with
  | some l1, some l2 => some (l1 ++ l2)
  | _, _ => none

/-- Scenario 1 of the spec: amount 100, payer `1`, participants `[1, 2]`. -/
def scenario1 : List Expense := [⟨100, 1, [1, 2], 2024, 5⟩]

/-- The accumulator invariant claimed by the spec: no `(A, A)` cell is
ever present, and the ledger is anti-symmetric. -/
structure LedgerInv (b : Balances) : Prop where
  noself : ∀ i, getCell b i i = none
  antisym : ∀ i j, getCell b i j = (getCell b j i).map (fun x => -x)

/-- User `x` figures in some expense of `es`, as payer or participant. -/
def appearsIn (es : List Expense) (x : Nat) : Prop :=
  ∃ e ∈ es, e.paidBy = x ∨ x ∈ e.participants

/-- Every outer key and every inner key of the accumulator satisfies `P`. -/
def KeysGood (P : Nat → Prop) (b : Balances) : Prop :=
  ∀ i r, (i, r) ∈ b → P i ∧ ∀ j v, (j, v) ∈ r → P j

/-- Sum of one accumulator row: everything its user owes, netted. -/
def rowSum (r : Row) : ℚ := (r.map Prod.snd).sum

/-- Net position of a user given their accumulator row: amount owed to
them minus amount they owe. -/
def netPosition (r : Row) : ℚ := -(rowSum r)

/-- Sum of every cell of the accumulator. -/
def ledgerSum (b : Balances) : ℚ := (b.map (fun pr => rowSum pr.2)).sum

/-- The outer keys of the accumulator. -/
def outerKeys (b : Balances) : List Nat := b.map Prod.fst

/-- Two accumulator rows agree from user `U`'s viewpoint: same key, same
`U` cell. -/
def RowAgree (U : Nat) (p q : Nat × Row) : Prop :=
  p.1 = q.1 ∧ rowGet p.2 U = rowGet q.2 U

/-- Accumulator `b'` refines `b` invisibly for user `U`: rows agree pairwise on
their key and their `U` cell, and any extra rows appended at the end
carry no `U` cell at all. -/
def Uext (U : Nat) (b b' : Balances) : Prop :=
  ∃ b₀ ext, b' = b₀ ++ ext ∧ List.Forall₂ (RowAgree U) b b₀ ∧
    ∀ q ∈ ext, rowGet q.2 U = none

/-- The `(year, month)` grouping key of an expense (`$year`/`$month`). -/
def bucket (e : Expense) : Nat × Nat := (e.year, e.month)

/-- Bucket `x` sorts no later than `y` under the descending sort:
`x` is at least as recent as `y`. -/
def bucketGe (x y : Nat × Nat) : Bool :=
  decide (y.1 < x.1 ∨ (x.1 = y.1 ∧ y.2 ≤ x.2))

/-- Insertion step of the descending `$sort`. -/
def insertEntry (x : (Nat × Nat) × ℚ) :
    List ((Nat × Nat) × ℚ) → List ((Nat × Nat) × ℚ)
  | [] => [x]
  | y :: t => if bucketGe x.1 y.1 then x :: y :: t else y :: insertEntry x t

/-- The sort stage: year descending, then month descending. -/
def sortEntries : List ((Nat × Nat) × ℚ) → List ((Nat × Nat) × ℚ)
  | [] => []
  | x :: t => insertEntry x (sortEntries t)

/-- The distinct `(year, month)` buckets present in the data
(the `$group` keys). -/
def monthBuckets (es : List Expense) : List (Nat × Nat) :=
  (es.map bucket).dedup

/-- The per-bucket sum of `amount` computed by the group stage. -/
def monthTotal (es : List Expense) (b : Nat × Nat) : ℚ :=
  ((es.filter (fun e => bucket e = b)).map Expense.amount).sum

/-- The full monthly pipeline: group, sort descending, limit 12. -/
def monthlyStats (es : List Expense) : List ((Nat × Nat) × ℚ) :=
  (sortEntries ((monthBuckets es).map (fun b => (b, monthTotal es b)))).take 12

/-- A malformed expense: non-positive amount and no participants. -/
def badExpense : Expense := ⟨-5, 3, [], 2024, 1⟩

/-- An expense not involving users 1 and 2. -/
def otherExpense : Expense := ⟨60, 3, [3, 4], 2024, 7⟩

/-- An expense whose payer is its sole participant. -/
def soloExpense : Expense := ⟨77, 5, [5], 2024, 6⟩

/-- Expense-creation boundary invariant (`POST /api/expenses`):
positive amount, non-empty participants. -/
def WellFormed (es : List Expense) : Prop :=
  ∀ e ∈ es, 0 < e.amount ∧ e.participants ≠ []

/-- Thirteen expenses in thirteen distinct months. -/
def statsScenario : List Expense :=
  [⟨10, 1, [1], 2024, 1⟩, ⟨10, 1, [1], 2024, 2⟩, ⟨10, 1, [1], 2024, 3⟩,
   ⟨10, 1, [1], 2024, 4⟩, ⟨10, 1, [1], 2024, 5⟩, ⟨10, 1, [1], 2024, 6⟩,
   ⟨10, 1, [1], 2024, 7⟩, ⟨10, 1, [1], 2024, 8⟩, ⟨10, 1, [1], 2024, 9⟩,
   ⟨10, 1, [1], 2024, 10⟩, ⟨10, 1, [1], 2024, 11⟩, ⟨10, 1, [1], 2024, 12⟩,
   ⟨10, 1, [1], 2024, 13⟩]

/-! ## Theorems -/

theorem rowGet_rowSet_self (r : Row) (j : Nat) (v : ℚ) :
    rowGet (rowSet r j v) j = some v := by
  induction r with
  | nil => simp [rowSet, rowGet]
  | cons hd t ih =>
    obtain ⟨k, w⟩ := hd
    by_cases hk : k = j
    · simp [rowSet, rowGet, hk]
    · simp [rowSet, rowGet, hk, ih]

theorem rowGet_rowSet_ne (r : Row) {j k : Nat} (v : ℚ) (h : k ≠ j) :
    rowGet (rowSet r j v) k = rowGet r k := by
  induction r with
  | nil => simp [rowSet, rowGet, Ne.symm h]
  | cons hd t ih =>
    obtain ⟨k', w⟩ := hd
    by_cases hk : k' = j
    · subst hk
      simp [rowSet, rowGet, Ne.symm h]
    · simp only [rowSet, if_neg hk, rowGet]
      by_cases hk2 : k' = k <;> simp [hk2, ih]

theorem getRow_setRow_self (b : Balances) (i : Nat) (r : Row) :
    getRow (setRow b i r) i = some r := by
  induction b with
  | nil => simp [setRow, getRow]
  | cons hd t ih =>
    obtain ⟨k, w⟩ := hd
    by_cases hk : k = i
    · simp [setRow, getRow, hk]
    · simp [setRow, getRow, hk, ih]

theorem getRow_setRow_ne (b : Balances) {i a : Nat} (r : Row) (h : a ≠ i) :
    getRow (setRow b i r) a = getRow b a := by
  induction b with
  | nil => simp [setRow, getRow, Ne.symm h]
  | cons hd t ih =>
    obtain ⟨k, w⟩ := hd
    by_cases hk : k = i
    · subst hk
      simp [setRow, getRow, (Ne.symm h)]
    · simp only [setRow, if_neg hk, getRow]
      by_cases hk2 : k = a <;> simp [hk2, ih]

theorem getCell_addToCell_self (b : Balances) (i j : Nat) (v : ℚ) :
    getCell (addToCell b i j v) i j = some ((getCell b i j).getD 0 + v) := by
  unfold addToCell
  cases h : getRow b i with
  | none => simp [getCell, h, getRow_setRow_self, rowGet_rowSet_self, rowGet]
  | some r => simp [getCell, h, getRow_setRow_self, rowGet_rowSet_self]

theorem getCell_addToCell_ne (b : Balances) {i j a c : Nat} (v : ℚ)
    (h : a ≠ i ∨ c ≠ j) :
    getCell (addToCell b i j v) a c = getCell b a c := by
  unfold addToCell
  rcases h with h | h
  · simp only [getCell]
    rw [getRow_setRow_ne _ _ h]
  · by_cases ha : a = i
    · subst ha
      cases hg : getRow b a with
      | none =>
        simp [getCell, hg, getRow_setRow_self, rowGet_rowSet_ne _ _ h, rowGet,
          Ne.symm h]
      | some r =>
        simp [getCell, hg, getRow_setRow_self, rowGet_rowSet_ne _ _ h]
    · simp only [getCell]
      rw [getRow_setRow_ne _ _ ha]

theorem getRow_mem {b : Balances} {i : Nat} {r : Row}
    (h : getRow b i = some r) : (i, r) ∈ b := by
  induction b with
  | nil => simp [getRow] at h
  | cons hd t ih =>
    obtain ⟨k, w⟩ := hd
    by_cases hk : k = i
    · subst hk
      simp [getRow] at h
      simp [h]
    · simp [getRow, hk] at h
      exact List.mem_cons_of_mem _ (ih h)

theorem rowGet_isSome_of_mem {r : Row} {k : Nat} {v : ℚ}
    (h : (k, v) ∈ r) : ∃ w, rowGet r k = some w := by
  induction r with
  | nil => simp at h
  | cons hd t ih =>
    obtain ⟨k', w'⟩ := hd
    by_cases hk : k' = k
    · exact ⟨w', by simp [rowGet, hk]⟩
    · rcases List.mem_cons.1 h with h1 | h1
      · exact absurd (congrArg Prod.fst h1).symm hk
      · obtain ⟨w, hw⟩ := ih h1
        exact ⟨w, by simp [rowGet, hk, hw]⟩

theorem mem_rowSet {r : Row} {j k : Nat} {v w : ℚ}
    (h : (k, w) ∈ rowSet r j v) : (k, w) ∈ r ∨ k = j := by
  induction r with
  | nil => simp [rowSet] at h; simp [h]
  | cons hd t ih =>
    obtain ⟨k', w'⟩ := hd
    by_cases hk : k' = j
    · simp only [rowSet, if_pos hk] at h
      rcases List.mem_cons.1 h with h1 | h1
      · right; exact (Prod.mk.injEq .. ▸ h1).1
      · left; exact List.mem_cons_of_mem _ h1
    · simp only [rowSet, if_neg hk] at h
      rcases List.mem_cons.1 h with h1 | h1
      · left; exact List.mem_cons.2 (Or.inl h1)
      · rcases ih h1 with h2 | h2
        · left; exact List.mem_cons_of_mem _ h2
        · right; exact h2

theorem mem_setRow {b : Balances} {i k : Nat} {r s : Row}
    (h : (k, s) ∈ setRow b i r) : (k, s) ∈ b ∨ (k = i ∧ s = r) := by
  induction b with
  | nil => simp [setRow] at h; simp [h]
  | cons hd t ih =>
    obtain ⟨k', w'⟩ := hd
    by_cases hk : k' = i
    · simp only [setRow, if_pos hk] at h
      rcases List.mem_cons.1 h with h1 | h1
      · right
        obtain ⟨h2, h3⟩ := Prod.mk.injEq .. ▸ h1
        exact ⟨h2, h3⟩
      · left; exact List.mem_cons_of_mem _ h1
    · simp only [setRow, if_neg hk] at h
      rcases List.mem_cons.1 h with h1 | h1
      · left; exact List.mem_cons.2 (Or.inl h1)
      · rcases ih h1 with h2 | h2
        · left; exact List.mem_cons_of_mem _ h2
        · right; exact h2

theorem scenario1_accumulate :
    accumulate scenario1 = [(2, [(1, 50)]), (1, [(2, -50)])] := by
  norm_num [accumulate, processExpense, updatePair, addToCell, getRow, setRow,
    rowGet, rowSet, scenario1]

theorem scenario1_balance_user2 : computeBalance scenario1 2 =
    some [⟨true, 50, 1⟩, ⟨false, 50, 1⟩] := by
  norm_num [computeBalance, accumulate, processExpense, updatePair, addToCell,
    getRow, setRow, rowGet, rowSet, loop1, loop2, lookupUser, truthyCell,
    scenario1, List.find?]

theorem scenario1_balance_user1 : computeBalance scenario1 1 = some [] := by
  norm_num [computeBalance, accumulate, processExpense, updatePair, addToCell,
    getRow, setRow, rowGet, rowSet, loop1, loop2, lookupUser, truthyCell,
    scenario1, List.find?]

theorem scenario1_cell_12 : getCell (accumulate scenario1) 1 2 = some (-50) := by
  rw [getCell, scenario1_accumulate]
  norm_num [getRow, rowGet]

theorem wellFormed_scenario1 : ∀ e ∈ scenario1, 0 < e.amount ∧ e.participants ≠ [] := by
  intro e he
  simp only [scenario1, List.mem_singleton] at he
  subst he
  refine ⟨by norm_num, by simp⟩

theorem ledgerInv_nil : LedgerInv [] :=
  ⟨fun _ => rfl, fun _ _ => rfl⟩

theorem ledgerInv_updatePair {b : Balances} (h : LedgerInv b)
    (p payer : Nat) (s : ℚ) : LedgerInv (updatePair b p payer s) := by
  unfold updatePair
  by_cases hpp : payer ≠ p
  · simp only [if_pos hpp]
    have hget : ∀ i j, ¬(i = p ∧ j = payer) → ¬(i = payer ∧ j = p) →
        getCell (addToCell (addToCell b p payer s) payer p (-s)) i j
          = getCell b i j := by
      intro i j h1 h2
      rw [getCell_addToCell_ne _ _ (by omega), getCell_addToCell_ne _ _ (by omega)]
    have hA : getCell (addToCell (addToCell b p payer s) payer p (-s)) p payer
        = some ((getCell b p payer).getD 0 + s) := by
      rw [getCell_addToCell_ne _ _ (by omega), getCell_addToCell_self]
    have hB : getCell (addToCell (addToCell b p payer s) payer p (-s)) payer p
        = some ((getCell b payer p).getD 0 + (-s)) := by
      rw [getCell_addToCell_self, getCell_addToCell_ne _ _ (by omega)]
    constructor
    · intro i
      rw [hget i i (by omega) (by omega)]
      exact h.noself i
    · intro i j
      by_cases hij1 : i = p ∧ j = payer
      · obtain ⟨hi, hj⟩ := hij1
        subst hi; subst hj
        rw [hA, hB]
        have := h.antisym i j
        cases hc : getCell b j i with
        | none => rw [hc] at this; simp at this; simp [this, hc]
        | some w =>
          rw [hc] at this; simp at this; simp [this, hc]
          ring
      · by_cases hij2 : i = payer ∧ j = p
        · obtain ⟨hi, hj⟩ := hij2
          subst hi; subst hj
          rw [hA, hB]
          have := h.antisym i j
          cases hc : getCell b j i with
          | none => rw [hc] at this; simp at this; simp [this, hc]
          | some w =>
            rw [hc] at this; simp at this; simp [this, hc]
            ring
        · rw [hget i j (by tauto) (by tauto), hget j i (by tauto) (by tauto)]
          exact h.antisym i j
  · simp only [if_neg hpp]
    exact h

theorem ledgerInv_foldl_updatePair {b : Balances} (h : LedgerInv b)
    (payer : Nat) (s : ℚ) (ps : List Nat) :
    LedgerInv (ps.foldl (fun b p => updatePair b p payer s) b) := by
  induction ps generalizing b with
  | nil => exact h
  | cons hd t ih => exact ih (ledgerInv_updatePair h hd payer s)

theorem ledgerInv_processExpense {b : Balances} (h : LedgerInv b)
    (e : Expense) : LedgerInv (processExpense b e) :=
  ledgerInv_foldl_updatePair h e.paidBy _ e.participants

theorem ledgerInv_accumulate (es : List Expense) :
    LedgerInv (accumulate es) := by
  unfold accumulate
  have : ∀ (l : List Expense) (b : Balances), LedgerInv b →
      LedgerInv (l.foldl processExpense b) := by
    intro l
    induction l with
    | nil => exact fun _ h => h
    | cons hd t ih => exact fun b h => ih _ (ledgerInv_processExpense h hd)
  exact this es [] ledgerInv_nil

theorem keysGood_nil (P : Nat → Prop) : KeysGood P [] := by
  intro i r h
  simp at h

theorem keysGood_addToCell {P : Nat → Prop} {b : Balances}
    (h : KeysGood P b) {i j : Nat} (hi : P i) (hj : P j) (v : ℚ) :
    KeysGood P (addToCell b i j v) := by
  intro i' r' hm
  unfold addToCell at hm
  rcases mem_setRow hm with hb | ⟨hbi, hbr⟩
  · exact h i' r' hb
  · subst hbi
    refine ⟨hi, ?_⟩
    intro j' v' hjv
    subst hbr
    rcases mem_rowSet hjv with hrow | hrow
    · cases hg : getRow b i' with
      | none => rw [hg] at hrow; simp at hrow
      | some r0 =>
        rw [hg] at hrow
        exact (h i' r0 (getRow_mem hg)).2 j' v' hrow
    · exact hrow ▸ hj

theorem keysGood_updatePair {P : Nat → Prop} {b : Balances}
    (h : KeysGood P b) {p payer : Nat} (hp : P p) (hpayer : P payer) (s : ℚ) :
    KeysGood P (updatePair b p payer s) := by
  unfold updatePair
  by_cases hpp : payer ≠ p
  · simp only [if_pos hpp]
    exact keysGood_addToCell (keysGood_addToCell h hp hpayer s) hpayer hp (-s)
  · simp only [if_neg hpp]
    exact h

theorem keysGood_foldl_updatePair {P : Nat → Prop} {payer : Nat} {s : ℚ} :
    ∀ (l : List Nat) (b : Balances), KeysGood P b → P payer →
    (∀ p ∈ l, P p) →
    KeysGood P (l.foldl (fun b p => updatePair b p payer s) b) := by
  intro l
  induction l with
  | nil => exact fun b h _ _ => h
  | cons hd t ih =>
    intro b h hpayer hparts
    simp only [List.foldl_cons]
    exact ih _ (keysGood_updatePair h (hparts hd (List.mem_cons_self hd t)) hpayer s)
      hpayer (fun p hp => hparts p (List.mem_cons_of_mem _ hp))

theorem keysGood_processExpense {P : Nat → Prop} {b : Balances}
    (h : KeysGood P b) {e : Expense} (hpayer : P e.paidBy)
    (hparts : ∀ p ∈ e.participants, P p) :
    KeysGood P (processExpense b e) :=
  keysGood_foldl_updatePair e.participants b h hpayer hparts

theorem keysGood_accumulate (es : List Expense) :
    KeysGood (appearsIn es) (accumulate es) := by
  unfold accumulate
  have main : ∀ (l : List Expense) (b : Balances), (∀ e ∈ l, e ∈ es) →
      KeysGood (appearsIn es) b →
      KeysGood (appearsIn es) (l.foldl processExpense b) := by
    intro l
    induction l with
    | nil => exact fun b _ h => h
    | cons hd t ih =>
      intro b hsub h
      simp only [List.foldl_cons]
      refine ih _ (fun e he => hsub e (List.mem_cons_of_mem _ he)) ?_
      refine keysGood_processExpense h ?_ ?_
      · exact ⟨hd, hsub hd (List.mem_cons_self hd t), Or.inl rfl⟩
      · exact fun p hp => ⟨hd, hsub hd (List.mem_cons_self hd t), Or.inr hp⟩
  exact main es [] (fun _ h => h) (keysGood_nil _)

/-- Whenever `x` figures in some expense, the JavaScript user-object
lookup finds it (and, ids being primitive here, returns `x` itself). -/
theorem lookupUser_appears {es : List Expense} {x : Nat}
    (h : appearsIn es x) : lookupUser es x = some x := by
  obtain ⟨e, he, hx⟩ := h
  unfold lookupUser
  have hfind : ∃ a, es.find? (fun e => e.paidBy == x || e.participants.contains x)
      = some a := by
    have : (es.find? (fun e => e.paidBy == x || e.participants.contains x)).isSome := by
      rw [List.find?_isSome]
      refine ⟨e, he, ?_⟩
      simp only [Bool.or_eq_true, beq_iff_eq, List.contains, List.elem_iff]
      exact hx
    exact Option.isSome_iff_exists.1 this
  obtain ⟨a, ha⟩ := hfind
  rw [ha]
  have hapred := List.find?_some ha
  simp only [Bool.or_eq_true, beq_iff_eq, List.contains, List.elem_iff] at hapred
  cases hp : a.participants.find? (fun p => p == x) with
  | some p =>
    have hpx := List.find?_some hp
    simp only [beq_iff_eq] at hpx
    simp [hp, hpx]
  | none =>
    have hnp : x ∉ a.participants := by
      intro hmem
      have := List.find?_eq_none.1 hp x hmem
      simp at this
    have hpay : a.paidBy = x := by
      rcases hapred with h1 | h1
      · exact h1
      · exact absurd h1 hnp
    have hfind2 : ∃ c, es.find? (fun e => e.paidBy == x) = some c := by
      have : (es.find? (fun e => e.paidBy == x)).isSome := by
        rw [List.find?_isSome]
        exact ⟨a, List.mem_of_find?_eq_some ha, by simp [hpay]⟩
      exact Option.isSome_iff_exists.1 this
    obtain ⟨c, hc⟩ := hfind2
    have hcx := List.find?_some hc
    simp only [beq_iff_eq] at hcx
    simp [hp, hc, hcx]

/-- The lookup, when it succeeds, returns the identifier it searched for. -/
theorem lookupUser_some_eq {es : List Expense} {o u : Nat}
    (h : lookupUser es o = some u) : u = o := by
  unfold lookupUser at h
  split at h
  · simp at h
  · split at h
    · rename_i a ha p hp
      have := List.find?_some hp
      simp only [beq_iff_eq] at this
      simp only [Option.some.injEq] at h
      omega
    · split at h
      · simp at h
      · rename_i a ha hp c hc
        have := List.find?_some hc
        simp only [beq_iff_eq] at this
        simp only [Option.some.injEq] at h
        omega

theorem loop1_total {es : List Expense} {r : Row}
    (h : ∀ pr ∈ r, appearsIn es pr.1) : ∃ l, loop1 es r = some l := by
  induction r with
  | nil => exact ⟨[], rfl⟩
  | cons hd t ih =>
    obtain ⟨other, amt⟩ := hd
    obtain ⟨l, hl⟩ := ih (fun pr hpr => h pr (List.mem_cons_of_mem _ hpr))
    by_cases hamt : 0 < amt
    · have happ : appearsIn es other := h (other, amt) (List.mem_cons_self _ _)
      refine ⟨⟨true, amt, other⟩ :: l, ?_⟩
      simp [loop1, hamt, lookupUser_appears happ, hl]
    · exact ⟨l, by simp [loop1, hamt, hl]⟩

theorem loop2_total {es : List Expense} {u : Nat} {b : Balances}
    (h : ∀ pr ∈ b, appearsIn es pr.1) : ∃ l, loop2 es u b = some l := by
  induction b with
  | nil => exact ⟨[], rfl⟩
  | cons hd t ih =>
    obtain ⟨other, row⟩ := hd
    obtain ⟨l, hl⟩ := ih (fun pr hpr => h pr (List.mem_cons_of_mem _ hpr))
    by_cases hcond : other ≠ u ∧ truthyCell row u
    · by_cases hamt : 0 < -((rowGet row u).getD 0)
      · have happ : appearsIn es other := h (other, row) (List.mem_cons_self _ _)
        refine ⟨⟨false, -((rowGet row u).getD 0), other⟩ :: l, ?_⟩
        simp [loop2, hcond, hamt, lookupUser_appears happ, hl]
      · exact ⟨l, by simp [loop2, hcond, hamt, hl]⟩
    · exact ⟨l, by simp [loop2, hcond, hl]⟩

/-- The balance computation never throws: the formatting loops only ever
look up identifiers that occur as accumulator keys, and every
accumulator key figures in some expense of the list, where the lookup
then finds it. -/
theorem computeBalance_total (es : List Expense) (u : Nat) :
    ∃ out, computeBalance es u = some out := by
  have hkeys := keysGood_accumulate es
  have h1 : ∀ pr ∈ (getRow (accumulate es) u).getD [], appearsIn es pr.1 := by
    intro pr hpr
    cases hg : getRow (accumulate es) u with
    | none => rw [hg] at hpr; simp at hpr
    | some r =>
      rw [hg] at hpr
      exact (hkeys u r (getRow_mem hg)).2 pr.1 pr.2 (by simpa using hpr)
  have h2 : ∀ pr ∈ accumulate es, appearsIn es pr.1 := by
    intro pr hpr
    exact (hkeys pr.1 pr.2 (by simpa using hpr)).1
  obtain ⟨l1, hl1⟩ := loop1_total h1
  obtain ⟨l2, hl2⟩ := loop2_total (u := u) h2
  exact ⟨l1 ++ l2, by unfold computeBalance; rw [hl1, hl2]⟩

theorem computeBalance_some_parts {es : List Expense} {u : Nat}
    {out : List Entry} (h : computeBalance es u = some out) :
    ∃ l1 l2, loop1 es ((getRow (accumulate es) u).getD []) = some l1 ∧
      loop2 es u (accumulate es) = some l2 ∧ out = l1 ++ l2 := by
  unfold computeBalance at h
  cases h1 : loop1 es ((getRow (accumulate es) u).getD []) with
  | none => rw [h1] at h; simp at h
  | some l1 =>
    cases h2 : loop2 es u (accumulate es) with
    | none => rw [h1, h2] at h; simp at h
    | some l2 =>
      rw [h1, h2] at h
      simp only [Option.some.injEq] at h
      exact ⟨l1, l2, rfl, rfl, h.symm⟩

theorem loop1_user_mem {es : List Expense} :
    ∀ {r : Row} {l : List Entry}, loop1 es r = some l →
    ∀ en ∈ l, ∃ v, (en.user, v) ∈ r := by
  intro r
  induction r with
  | nil =>
    intro l h en hen
    simp [loop1] at h
    subst h
    simp at hen
  | cons hd t ih =>
    intro l h en hen
    obtain ⟨other, amt⟩ := hd
    by_cases hamt : 0 < amt
    · simp only [loop1, if_pos hamt] at h
      cases hu : lookupUser es other with
      | none => rw [hu] at h; simp at h
      | some u =>
        rw [hu] at h
        cases hrec : loop1 es t with
        | none => rw [hrec] at h; simp at h
        | some l' =>
          rw [hrec] at h
          simp at h
          subst h
          rcases List.mem_cons.1 hen with hh | hh
          · subst hh
            exact ⟨amt, by simp [lookupUser_some_eq hu]⟩
          · obtain ⟨v, hv⟩ := ih hrec en hh
            exact ⟨v, List.mem_cons_of_mem _ hv⟩
    · simp only [loop1, if_neg hamt] at h
      obtain ⟨v, hv⟩ := ih h en hen
      exact ⟨v, List.mem_cons_of_mem _ hv⟩

theorem loop2_user_ne {es : List Expense} {u : Nat} :
    ∀ {b : Balances} {l : List Entry}, loop2 es u b = some l →
    ∀ en ∈ l, en.user ≠ u := by
  intro b
  induction b with
  | nil =>
    intro l h en hen
    simp [loop2] at h
    subst h
    simp at hen
  | cons hd t ih =>
    intro l h en hen
    obtain ⟨other, row⟩ := hd
    by_cases hcond : other ≠ u ∧ truthyCell row u
    · by_cases hamt : 0 < -((rowGet row u).getD 0)
      · simp only [loop2, if_pos hcond, if_pos hamt] at h
        cases hu : lookupUser es other with
        | none => rw [hu] at h; simp at h
        | some u' =>
          rw [hu] at h
          cases hrec : loop2 es u t with
          | none => rw [hrec] at h; simp at h
          | some l' =>
            rw [hrec] at h
            simp at h
            subst h
            rcases List.mem_cons.1 hen with hh | hh
            · subst hh
              simpa [lookupUser_some_eq hu] using hcond.1
            · exact ih hrec en hh
      · simp only [loop2, if_pos hcond, if_neg hamt] at h
        exact ih h en hen
    · simp only [loop2, if_neg hcond] at h
      exact ih h en hen

theorem rowSum_rowSet (r : Row) (j : Nat) (v : ℚ) :
    rowSum (rowSet r j v) = rowSum r + (v - (rowGet r j).getD 0) := by
  induction r with
  | nil => simp [rowSet, rowGet, rowSum]
  | cons hd t ih =>
    obtain ⟨k, w⟩ := hd
    by_cases hk : k = j
    · simp [rowSet, rowGet, rowSum, hk]
      ring
    · simp only [rowSet, if_neg hk, rowGet, rowSum, List.map_cons, List.sum_cons]
      simp only [rowSum] at ih
      rw [ih]
      ring

theorem ledgerSum_setRow (b : Balances) (i : Nat) (r : Row) :
    ledgerSum (setRow b i r)
      = ledgerSum b + (rowSum r - rowSum ((getRow b i).getD [])) := by
  induction b with
  | nil => simp [setRow, getRow, ledgerSum, rowSum]
  | cons hd t ih =>
    obtain ⟨k, w⟩ := hd
    by_cases hk : k = i
    · simp only [setRow, if_pos hk, getRow, ledgerSum, List.map_cons, List.sum_cons]
      simp [hk]
      ring
    · simp only [setRow, if_neg hk, getRow, ledgerSum, List.map_cons, List.sum_cons]
      simp only [ledgerSum] at ih
      rw [ih]
      ring

theorem ledgerSum_addToCell (b : Balances) (i j : Nat) (v : ℚ) :
    ledgerSum (addToCell b i j v) = ledgerSum b + v := by
  unfold addToCell
  rw [ledgerSum_setRow, rowSum_rowSet]
  ring

theorem ledgerSum_updatePair (b : Balances) (p payer : Nat) (s : ℚ) :
    ledgerSum (updatePair b p payer s) = ledgerSum b := by
  unfold updatePair
  by_cases hpp : payer ≠ p
  · simp only [if_pos hpp]
    rw [ledgerSum_addToCell, ledgerSum_addToCell]
    ring
  · simp [hpp]

theorem ledgerSum_processExpense (b : Balances) (e : Expense) :
    ledgerSum (processExpense b e) = ledgerSum b := by
  unfold processExpense
  generalize e.amount / (e.participants.length : ℚ) = s
  induction e.participants generalizing b with
  | nil => rfl
  | cons hd t ih =>
    simp only [List.foldl_cons]
    rw [ih, ledgerSum_updatePair]

theorem ledgerSum_accumulate (es : List Expense) :
    ledgerSum (accumulate es) = 0 := by
  unfold accumulate
  have : ∀ (l : List Expense) (b : Balances),
      ledgerSum (l.foldl processExpense b) = ledgerSum b := by
    intro l
    induction l with
    | nil => exact fun _ => rfl
    | cons hd t ih =>
      intro b
      simp only [List.foldl_cons]
      rw [ih, ledgerSum_processExpense]
  rw [this]
  rfl

theorem mem_outerKeys_setRow {b : Balances} {i x : Nat} {r : Row}
    (h : x ∈ outerKeys (setRow b i r)) : x ∈ outerKeys b ∨ x = i := by
  induction b with
  | nil => simp [setRow, outerKeys] at h; simp [h]
  | cons hd t ih =>
    obtain ⟨k, w⟩ := hd
    by_cases hk : k = i
    · simp only [setRow, if_pos hk, outerKeys, List.map_cons] at h
      rcases List.mem_cons.1 h with h1 | h1
      · right; exact h1
      · left; simp [outerKeys, h1]
    · simp only [setRow, if_neg hk, outerKeys, List.map_cons] at h
      rcases List.mem_cons.1 h with h1 | h1
      · left; simp [outerKeys, h1]
      · rcases ih h1 with h2 | h2
        · left; simp [outerKeys] at h2 ⊢; tauto
        · right; exact h2

theorem nodup_outerKeys_setRow {b : Balances} (h : (outerKeys b).Nodup)
    (i : Nat) (r : Row) : (outerKeys (setRow b i r)).Nodup := by
  induction b with
  | nil => simp [setRow, outerKeys]
  | cons hd t ih =>
    obtain ⟨k, w⟩ := hd
    simp only [outerKeys, List.map_cons, List.nodup_cons] at h
    by_cases hk : k = i
    · simp only [setRow, if_pos hk, outerKeys, List.map_cons, List.nodup_cons]
      exact ⟨hk ▸ h.1, h.2⟩
    · simp only [setRow, if_neg hk, outerKeys, List.map_cons, List.nodup_cons]
      refine ⟨fun hc => ?_, ih h.2⟩
      rcases mem_outerKeys_setRow hc with h1 | h1
      · exact h.1 h1
      · exact hk h1

theorem nodup_outerKeys_addToCell {b : Balances} (h : (outerKeys b).Nodup)
    (i j : Nat) (v : ℚ) : (outerKeys (addToCell b i j v)).Nodup :=
  nodup_outerKeys_setRow h i _

theorem nodup_outerKeys_accumulate (es : List Expense) :
    (outerKeys (accumulate es)).Nodup := by
  unfold accumulate
  have hstep : ∀ (e : Expense) (b : Balances), (outerKeys b).Nodup →
      (outerKeys (processExpense b e)).Nodup := by
    intro e b hb
    unfold processExpense
    generalize e.amount / (e.participants.length : ℚ) = s
    induction e.participants generalizing b with
    | nil => exact hb
    | cons hd t ih =>
      simp only [List.foldl_cons]
      refine ih _ ?_
      unfold updatePair
      by_cases hpp : e.paidBy ≠ hd
      · simp only [if_pos hpp]
        exact nodup_outerKeys_addToCell (nodup_outerKeys_addToCell hb _ _ _) _ _ _
      · simp only [if_neg hpp]
        exact hb
  have : ∀ (l : List Expense) (b : Balances), (outerKeys b).Nodup →
      (outerKeys (l.foldl processExpense b)).Nodup := by
    intro l
    induction l with
    | nil => exact fun _ h => h
    | cons hd t ih =>
      intro b hb
      simp only [List.foldl_cons]
      exact ih _ (hstep hd b hb)
  exact this es [] (by simp [outerKeys])

theorem addToCell_cons_eq (k : Nat) (r : Row) (t : Balances) (j : Nat) (v : ℚ) :
    addToCell ((k, r) :: t) k j v
      = (k, rowSet r j ((rowGet r j).getD 0 + v)) :: t := by
  unfold addToCell
  simp [getRow, setRow]

theorem addToCell_cons_ne {k i : Nat} (h : k ≠ i) (r : Row) (t : Balances)
    (j : Nat) (v : ℚ) :
    addToCell ((k, r) :: t) i j v = (k, r) :: addToCell t i j v := by
  unfold addToCell
  simp [getRow, setRow, h]

theorem forall2_rowAgree_refl (U : Nat) (b : Balances) :
    List.Forall₂ (RowAgree U) b b := by
  induction b with
  | nil => exact List.Forall₂.nil
  | cons hd t ih => exact List.Forall₂.cons ⟨rfl, rfl⟩ ih

theorem uext_refl (U : Nat) (b : Balances) : Uext U b b :=
  ⟨b, [], by simp, forall2_rowAgree_refl U b, by simp⟩

theorem forall2_rowAgree_trans {U : Nat} :
    ∀ {a b c : Balances}, List.Forall₂ (RowAgree U) a b →
    List.Forall₂ (RowAgree U) b c → List.Forall₂ (RowAgree U) a c := by
  intro a b c hab
  induction hab generalizing c with
  | nil =>
    intro hbc
    cases hbc
    exact List.Forall₂.nil
  | cons h1 h2 ih =>
    intro hbc
    cases hbc with
    | cons h3 h4 =>
      exact List.Forall₂.cons ⟨h1.1.trans h3.1, h1.2.trans h3.2⟩ (ih h4)

theorem forall2_rowAgree_none {U : Nat} :
    ∀ {l l' : Balances}, List.Forall₂ (RowAgree U) l l' →
    (∀ q ∈ l, rowGet q.2 U = none) → ∀ q ∈ l', rowGet q.2 U = none := by
  intro l l' h
  induction h with
  | nil => exact fun _ q hq => absurd hq (by simp)
  | cons h1 h2 ih =>
    intro hnone q hq
    rcases List.mem_cons.1 hq with hh | hh
    · subst hh
      rw [← h1.2]
      exact hnone _ (List.mem_cons_self _ _)
    · exact ih (fun q hq => hnone q (List.mem_cons_of_mem _ hq)) q hh

theorem forall2_rowAgree_split {U : Nat} :
    ∀ {l1 l2 c : Balances}, List.Forall₂ (RowAgree U) (l1 ++ l2) c →
    ∃ c1 c2, c = c1 ++ c2 ∧ List.Forall₂ (RowAgree U) l1 c1 ∧
      List.Forall₂ (RowAgree U) l2 c2 := by
  intro l1
  induction l1 with
  | nil => exact fun h => ⟨[], _, rfl, List.Forall₂.nil, h⟩
  | cons hd t ih =>
    intro l2 c h
    cases h with
    | cons h1 h2 =>
      obtain ⟨c1, c2, rfl, hf1, hf2⟩ := ih h2
      exact ⟨_ :: c1, c2, rfl, List.Forall₂.cons h1 hf1, hf2⟩

theorem uext_trans {U : Nat} {a b c : Balances}
    (hab : Uext U a b) (hbc : Uext U b c) : Uext U a c := by
  obtain ⟨b₀, ext1, rfl, hf1, hn1⟩ := hab
  obtain ⟨c₀, ext2, rfl, hf2, hn2⟩ := hbc
  obtain ⟨c₀a, c₀b, rfl, hfa, hfb⟩ := forall2_rowAgree_split hf2
  refine ⟨c₀a, c₀b ++ ext2, by simp, forall2_rowAgree_trans hf1 hfa, ?_⟩
  intro q hq
  rcases List.mem_append.1 hq with hh | hh
  · exact forall2_rowAgree_none hfb hn1 q hh
  · exact hn2 q hh

theorem uext_addToCell {U j : Nat} (hj : j ≠ U) (i : Nat) (v : ℚ) :
    ∀ b : Balances, Uext U b (addToCell b i j v) := by
  intro b
  induction b with
  | nil =>
    refine ⟨[], [(i, [(j, 0 + v)])], rfl, List.Forall₂.nil, ?_⟩
    intro q hq
    simp at hq
    subst hq
    simp [rowGet, hj]
  | cons hd t ih =>
    obtain ⟨k, r⟩ := hd
    by_cases hk : k = i
    · subst hk
      rw [addToCell_cons_eq]
      refine ⟨(k, rowSet r j ((rowGet r j).getD 0 + v)) :: t, [], by simp, ?_, by simp⟩
      refine List.Forall₂.cons ⟨rfl, ?_⟩ (forall2_rowAgree_refl U t)
      exact (rowGet_rowSet_ne r _ (Ne.symm hj)).symm
    · rw [addToCell_cons_ne hk]
      obtain ⟨t₀, ext, heq, hf, hn⟩ := ih
      exact ⟨(k, r) :: t₀, ext, by simp [heq], List.Forall₂.cons ⟨rfl, rfl⟩ hf, hn⟩

theorem uext_updatePair {U p payer : Nat} (hp : p ≠ U) (hpayer : payer ≠ U)
    (b : Balances) (s : ℚ) : Uext U b (updatePair b p payer s) := by
  unfold updatePair
  by_cases hpp : payer ≠ p
  · simp only [if_pos hpp]
    exact uext_trans (uext_addToCell hpayer p s b)
      (uext_addToCell hp payer (-s) _)
  · simp only [if_neg hpp]
    exact uext_refl U b

theorem uext_processExpense {U : Nat} {e : Expense} (hpayer : e.paidBy ≠ U)
    (hparts : U ∉ e.participants) (b : Balances) :
    Uext U b (processExpense b e) := by
  unfold processExpense
  generalize e.amount / (e.participants.length : ℚ) = s
  have : ∀ (l : List Nat) (b : Balances), (∀ p ∈ l, p ≠ U) →
      Uext U b (l.foldl (fun b p => updatePair b p e.paidBy s) b) := by
    intro l
    induction l with
    | nil => exact fun b _ => uext_refl U b
    | cons hd t ih =>
      intro b hl
      simp only [List.foldl_cons]
      refine uext_trans (uext_updatePair (hl hd (List.mem_cons_self _ _)) hpayer b s)
        (ih _ (fun p hp => hl p (List.mem_cons_of_mem _ hp)))
  exact this e.participants b (fun p hp hc => hparts (hc ▸ hp))

theorem truthyCell_congr {r r' : Row} {u : Nat}
    (h : rowGet r u = rowGet r' u) : truthyCell r u = truthyCell r' u := by
  unfold truthyCell
  rw [h]

theorem loop2_ext_none {es : List Expense} {U : Nat} :
    ∀ {ext : Balances}, (∀ q ∈ ext, rowGet q.2 U = none) →
    loop2 es U ext = some [] := by
  intro ext
  induction ext with
  | nil => exact fun _ => rfl
  | cons hd t ih =>
    intro h
    obtain ⟨other, row⟩ := hd
    have hz : rowGet row U = none := h (other, row) (List.mem_cons_self _ _)
    have hcond : ¬(other ≠ U ∧ truthyCell row U) := by
      intro hc
      rw [truthyCell, hz] at hc
      simp at hc
    simp only [loop2, if_neg hcond]
    exact ih (fun q hq => h q (List.mem_cons_of_mem _ hq))

theorem loop2_append_ext {es : List Expense} {U : Nat} {ext : Balances}
    (hn : ∀ q ∈ ext, rowGet q.2 U = none) :
    ∀ l : Balances, loop2 es U (l ++ ext) = loop2 es U l := by
  intro l
  induction l with
  | nil =>
    simp only [List.nil_append]
    rw [loop2_ext_none hn]
    rfl
  | cons hd t ih =>
    obtain ⟨other, row⟩ := hd
    simp only [List.cons_append, loop2, List.append_eq, ih]

theorem loop2_forall2 {es : List Expense} {U : Nat} :
    ∀ {b b₀ : Balances}, List.Forall₂ (RowAgree U) b b₀ →
    loop2 es U b₀ = loop2 es U b := by
  intro b b₀ h
  induction h with
  | nil => rfl
  | cons h1 h2 ih =>
    rename_i p q t t₀
    obtain ⟨o1, r1⟩ := p
    obtain ⟨o2, r2⟩ := q
    obtain ⟨ho, hr⟩ := h1
    simp only at ho hr
    subst ho
    simp only [loop2, truthyCell_congr hr.symm, hr.symm, ih]

theorem loop2_uext {es : List Expense} {U : Nat} {b b' : Balances}
    (h : Uext U b b') : loop2 es U b' = loop2 es U b := by
  obtain ⟨b₀, ext, rfl, hf, hn⟩ := h
  rw [loop2_append_ext hn, loop2_forall2 hf]

theorem getRow_addToCell_other {b : Balances} {i U : Nat} (h : U ≠ i)
    (j : Nat) (v : ℚ) : getRow (addToCell b i j v) U = getRow b U := by
  unfold addToCell
  exact getRow_setRow_ne _ _ h

theorem getRow_updatePair_other {b : Balances} {p payer U : Nat}
    (hp : p ≠ U) (hpayer : payer ≠ U) (s : ℚ) :
    getRow (updatePair b p payer s) U = getRow b U := by
  unfold updatePair
  by_cases hpp : payer ≠ p
  · simp only [if_pos hpp]
    rw [getRow_addToCell_other (Ne.symm hpayer), getRow_addToCell_other (Ne.symm hp)]
  · simp only [if_neg hpp]

theorem getRow_processExpense_other {b : Balances} {e : Expense} {U : Nat}
    (hpayer : e.paidBy ≠ U) (hparts : U ∉ e.participants) :
    getRow (processExpense b e) U = getRow b U := by
  unfold processExpense
  generalize e.amount / (e.participants.length : ℚ) = s
  have : ∀ (l : List Nat) (b : Balances), (∀ p ∈ l, p ≠ U) →
      getRow (l.foldl (fun b p => updatePair b p e.paidBy s) b) U = getRow b U := by
    intro l
    induction l with
    | nil => exact fun _ _ => rfl
    | cons hd t ih =>
      intro b hl
      simp only [List.foldl_cons]
      rw [ih _ (fun p hp => hl p (List.mem_cons_of_mem _ hp)),
        getRow_updatePair_other (hl hd (List.mem_cons_self _ _)) hpayer]
  exact this e.participants b (fun p hp hc => hparts (hc ▸ hp))

theorem loop1_congr {es1 es2 : List Expense} :
    ∀ {r : Row}, (∀ pr ∈ r, lookupUser es1 pr.1 = lookupUser es2 pr.1) →
    loop1 es1 r = loop1 es2 r := by
  intro r
  induction r with
  | nil => exact fun _ => rfl
  | cons hd t ih =>
    intro h
    obtain ⟨other, amt⟩ := hd
    have hh : lookupUser es1 other = lookupUser es2 other :=
      h (other, amt) (List.mem_cons_self _ _)
    have ht := ih (fun pr hpr => h pr (List.mem_cons_of_mem _ hpr))
    simp only [loop1, hh, ht]

theorem loop2_congr {es1 es2 : List Expense} {U : Nat} :
    ∀ {b : Balances}, (∀ pr ∈ b, lookupUser es1 pr.1 = lookupUser es2 pr.1) →
    loop2 es1 U b = loop2 es2 U b := by
  intro b
  induction b with
  | nil => exact fun _ => rfl
  | cons hd t ih =>
    intro h
    obtain ⟨other, row⟩ := hd
    have hh : lookupUser es1 other = lookupUser es2 other :=
      h (other, row) (List.mem_cons_self _ _)
    have ht := ih (fun pr hpr => h pr (List.mem_cons_of_mem _ hpr))
    simp only [loop2, hh, ht]

theorem appearsIn_mono {es : List Expense} {x : Nat} (e : Expense)
    (h : appearsIn es x) : appearsIn (es ++ [e]) x := by
  obtain ⟨e', he', hx⟩ := h
  exact ⟨e', List.mem_append_left _ he', hx⟩

theorem accumulate_append_single (es : List Expense) (e : Expense) :
    accumulate (es ++ [e]) = processExpense (accumulate es) e := by
  unfold accumulate
  rw [List.foldl_append]
  rfl

/-- Appending an expense that adds nothing to the ledger leaves the whole
balance response unchanged, for every requesting user: the formatting
loops read only ledger keys, and for those the lookup over the longer
list returns the same identifier. -/
theorem computeBalance_append_of_inert {es : List Expense} {e : Expense}
    {U : Nat} (hinert : processExpense (accumulate es) e = accumulate es) :
    computeBalance (es ++ [e]) U = computeBalance es U := by
  have hacc : accumulate (es ++ [e]) = accumulate es := by
    rw [accumulate_append_single, hinert]
  have hkeys := keysGood_accumulate es
  have hlk : ∀ x, appearsIn es x →
      lookupUser (es ++ [e]) x = lookupUser es x := by
    intro x hx
    rw [lookupUser_appears hx, lookupUser_appears (appearsIn_mono e hx)]
  have h1 : loop1 (es ++ [e]) ((getRow (accumulate (es ++ [e])) U).getD [])
      = loop1 es ((getRow (accumulate es) U).getD []) := by
    rw [hacc]
    apply loop1_congr
    intro pr hpr
    apply hlk
    cases hg : getRow (accumulate es) U with
    | none => rw [hg] at hpr; simp at hpr
    | some r =>
      rw [hg] at hpr
      exact (hkeys U r (getRow_mem hg)).2 pr.1 pr.2 (by simpa using hpr)
  have h2 : loop2 (es ++ [e]) U (accumulate (es ++ [e]))
      = loop2 es U (accumulate es) := by
    rw [hacc]
    apply loop2_congr
    intro pr hpr
    exact hlk pr.1 ((hkeys pr.1 pr.2 (by simpa using hpr)).1)
  unfold computeBalance
  rw [h1, h2]

/-- Appending an expense that does not involve user `U` leaves `U`'s
balance response unchanged. -/
theorem computeBalance_append_unrelated {es : List Expense} {e : Expense}
    {U : Nat} (hpayer : e.paidBy ≠ U) (hparts : U ∉ e.participants) :
    computeBalance (es ++ [e]) U = computeBalance es U := by
  have hacc := accumulate_append_single es e
  have hkeys := keysGood_accumulate es
  have hlk : ∀ x, appearsIn es x →
      lookupUser (es ++ [e]) x = lookupUser es x := by
    intro x hx
    rw [lookupUser_appears hx, lookupUser_appears (appearsIn_mono e hx)]
  have hrow : getRow (accumulate (es ++ [e])) U = getRow (accumulate es) U := by
    rw [hacc]
    exact getRow_processExpense_other hpayer hparts
  have h1 : loop1 (es ++ [e]) ((getRow (accumulate (es ++ [e])) U).getD [])
      = loop1 es ((getRow (accumulate es) U).getD []) := by
    rw [hrow]
    apply loop1_congr
    intro pr hpr
    apply hlk
    cases hg : getRow (accumulate es) U with
    | none => rw [hg] at hpr; simp at hpr
    | some r =>
      rw [hg] at hpr
      exact (hkeys U r (getRow_mem hg)).2 pr.1 pr.2 (by simpa using hpr)
  have h2 : loop2 (es ++ [e]) U (accumulate (es ++ [e]))
      = loop2 es U (accumulate es) := by
    rw [hacc, loop2_uext (uext_processExpense hpayer hparts (accumulate es))]
    apply loop2_congr
    intro pr hpr
    exact hlk pr.1 ((hkeys pr.1 pr.2 (by simpa using hpr)).1)
  unfold computeBalance
  rw [h1, h2]

/-- An expense whose payer is its sole participant writes nothing into
the ledger: the single loop iteration hits the skipped self pair. -/
theorem processExpense_self_only {e : Expense} (h : e.participants = [e.paidBy])
    (b : Balances) : processExpense b e = b := by
  unfold processExpense
  rw [h]
  simp [updatePair]

/-- An expense with no participants writes nothing into the ledger. -/
theorem processExpense_empty {e : Expense} (h : e.participants = [])
    (b : Balances) : processExpense b e = b := by
  unfold processExpense
  rw [h]
  rfl

theorem bucketGe_total {x y : Nat × Nat} (h : ¬bucketGe x y = true) :
    bucketGe y x = true := by
  simp [bucketGe] at h ⊢
  omega

theorem bucketGe_trans {x y z : Nat × Nat} (h1 : bucketGe x y = true)
    (h2 : bucketGe y z = true) : bucketGe x z = true := by
  simp [bucketGe] at h1 h2 ⊢
  omega

theorem mem_insertEntry {x z : (Nat × Nat) × ℚ} :
    ∀ {l : List ((Nat × Nat) × ℚ)}, z ∈ insertEntry x l ↔ z = x ∨ z ∈ l := by
  intro l
  induction l with
  | nil => simp [insertEntry]
  | cons y t ih =>
    by_cases hb : bucketGe x.1 y.1
    · simp [insertEntry, hb]
    · simp only [insertEntry, if_neg hb, List.mem_cons, ih]
      tauto

theorem perm_insertEntry (x : (Nat × Nat) × ℚ) :
    ∀ l : List ((Nat × Nat) × ℚ), (insertEntry x l).Perm (x :: l) := by
  intro l
  induction l with
  | nil => simp [insertEntry]
  | cons y t ih =>
    by_cases hb : bucketGe x.1 y.1
    · simp [insertEntry, hb]
    · simp only [insertEntry, if_neg hb]
      exact (List.Perm.cons y ih).trans (List.Perm.swap x y t)

theorem perm_sortEntries :
    ∀ l : List ((Nat × Nat) × ℚ), (sortEntries l).Perm l := by
  intro l
  induction l with
  | nil => exact List.Perm.refl _
  | cons x t ih =>
    exact (perm_insertEntry x (sortEntries t)).trans (List.Perm.cons x ih)

theorem sorted_insertEntry {x : (Nat × Nat) × ℚ}
    {l : List ((Nat × Nat) × ℚ)}
    (h : l.Pairwise (fun a b => bucketGe a.1 b.1 = true)) :
    (insertEntry x l).Pairwise (fun a b => bucketGe a.1 b.1 = true) := by
  induction l with
  | nil => simp [insertEntry]
  | cons y t ih =>
    rcases List.pairwise_cons.1 h with ⟨hy, ht⟩
    by_cases hb : bucketGe x.1 y.1
    · simp only [insertEntry, if_pos hb]
      refine List.pairwise_cons.2 ⟨?_, h⟩
      intro z hz
      rcases List.mem_cons.1 hz with hh | hh
      · exact hh ▸ hb
      · exact bucketGe_trans hb (hy z hh)
    · simp only [insertEntry, if_neg hb]
      refine List.pairwise_cons.2 ⟨?_, ih ht⟩
      intro z hz
      rcases mem_insertEntry.1 hz with hh | hh
      · exact hh ▸ bucketGe_total hb
      · exact hy z hh

theorem sorted_sortEntries :
    ∀ l : List ((Nat × Nat) × ℚ),
    (sortEntries l).Pairwise (fun a b => bucketGe a.1 b.1 = true) := by
  intro l
  induction l with
  | nil => simp [sortEntries]
  | cons x t ih => exact sorted_insertEntry ih

theorem monthBuckets_map_fst (es : List Expense) :
    (((monthBuckets es).map (fun b => (b, monthTotal es b))).map Prod.fst)
      = monthBuckets es := by
  rw [List.map_map]
  exact List.map_id'' (fun _ => rfl) _

/-- C9: the monthly statistics pipeline maps each `(year, month)` bucket
to the sum of the amounts in that bucket, keeps at most 12 buckets, each
bucket at most once, sorted descending by `(year, month)`, and every
bucket present in the data but dropped from the output is older than
every bucket kept. -/
theorem monthly_stats_correct (es : List Expense) :
    (monthlyStats es).length ≤ 12 ∧
    (∀ b t, (b, t) ∈ monthlyStats es →
      t = monthTotal es b ∧ b ∈ monthBuckets es) ∧
    ((monthlyStats es).map Prod.fst).Nodup ∧
    (monthlyStats es).Pairwise (fun x y => bucketGe x.1 y.1 = true) ∧
    (∀ b ∈ monthBuckets es, b ∉ (monthlyStats es).map Prod.fst →
      ∀ pr ∈ monthlyStats es, bucketGe pr.1 b = true) := by
  have hperm := perm_sortEntries ((monthBuckets es).map (fun b => (b, monthTotal es b)))
  have hsorted := sorted_sortEntries ((monthBuckets es).map (fun b => (b, monthTotal es b)))
  refine ⟨?_, ?_, ?_, ?_, ?_⟩
  · rw [monthlyStats, List.length_take]
    exact min_le_left _ _
  · intro b t hm
    have hs : (b, t) ∈ sortEntries ((monthBuckets es).map (fun b => (b, monthTotal es b))) :=
      List.take_subset _ _ hm
    have hmm := hperm.mem_iff.1 hs
    obtain ⟨a, ha, heq⟩ := List.mem_map.1 hmm
    obtain ⟨h1, h2⟩ := Prod.mk.injEq .. ▸ heq
    exact ⟨h2 ▸ (h1 ▸ rfl), h1 ▸ ha⟩
  · have hnodup_m : (((monthBuckets es).map (fun b => (b, monthTotal es b))).map Prod.fst).Nodup := by
      rw [monthBuckets_map_fst]
      exact List.nodup_dedup _
    have hnodup_s : ((sortEntries ((monthBuckets es).map (fun b => (b, monthTotal es b)))).map Prod.fst).Nodup :=
      ((hperm.map Prod.fst).nodup_iff).2 hnodup_m
    exact ((List.take_sublist _ _).map Prod.fst).nodup hnodup_s
  · exact List.Pairwise.sublist (List.take_sublist _ _) hsorted
  · intro b hb hnotin pr hpr
    set s := sortEntries ((monthBuckets es).map (fun b => (b, monthTotal es b))) with hs
    have hbm : (b, monthTotal es b) ∈ s :=
      hperm.mem_iff.2 (List.mem_map.2 ⟨b, hb, rfl⟩)
    have hnot_take : (b, monthTotal es b) ∉ s.take 12 := by
      intro hc
      exact hnotin (List.mem_map.2 ⟨(b, monthTotal es b), hc, rfl⟩)
    have hdrop : (b, monthTotal es b) ∈ s.drop 12 := by
      rcases List.mem_append.1 ((List.take_append_drop 12 s).symm ▸ hbm) with hh | hh
      · exact absurd hh hnot_take
      · exact hh
    have hpw : (s.take 12 ++ s.drop 12).Pairwise
        (fun x y => bucketGe x.1 y.1 = true) := by
      rw [List.take_append_drop]
      exact hsorted
    exact (List.pairwise_append.1 hpw).2.2 pr hpr (b, monthTotal es b) hdrop

theorem statsScenario_eval : monthlyStats statsScenario =
    [((2024, 13), 10), ((2024, 12), 10), ((2024, 11), 10), ((2024, 10), 10),
     ((2024, 9), 10), ((2024, 8), 10), ((2024, 7), 10), ((2024, 6), 10),
     ((2024, 5), 10), ((2024, 4), 10), ((2024, 3), 10), ((2024, 2), 10)] := by
  norm_num [monthlyStats, monthBuckets, monthTotal, bucket, sortEntries,
    insertEntry, bucketGe, statsScenario, List.dedup, List.pwFilter,
    List.filter, Prod.ext_iff]

theorem ledgerSum_cons (pr : Nat × Row) (t : Balances) :
    ledgerSum (pr :: t) = rowSum pr.2 + ledgerSum t := by
  simp [ledgerSum]

theorem netPosition_sum_eq_neg_ledgerSum :
    ∀ b : Balances, (b.map (fun pr => netPosition pr.2)).sum = -(ledgerSum b) := by
  intro b
  induction b with
  | nil => simp [ledgerSum]
  | cons hd t ih =>
    rw [List.map_cons, List.sum_cons, ih, ledgerSum_cons]
    unfold netPosition
    ring

/-- C1 (refuted, code bug): on Scenario 1 the handler's output for user 2
lists counterparty 1 twice — once as a debt and once, contradictorily, as
a credit — and its output for user 1 is empty although the net standing
of user 1 versus user 2 is −50 ≠ 0.  The cause is the sign of `amount`
in the second output loop (server.js line 140): by anti-symmetry of the
accumulator, `-balances[other][user] = balances[user][other]`, so the
second loop re-emits the pairs the first loop already emitted, flipped,
and never emits the genuinely-owed ones. -/
theorem balance_output_duplicates_counterparty :
    computeBalance scenario1 2 = some [⟨true, 50, 1⟩, ⟨false, 50, 1⟩] ∧
    ((computeBalance scenario1 2).getD []).countP (fun en => en.user == 1) = 2 ∧
    getCell (accumulate scenario1) 1 2 = some (-50) ∧
    computeBalance scenario1 1 = some [] := by
  refine ⟨scenario1_balance_user2, ?_, scenario1_cell_12, scenario1_balance_user1⟩
  rw [scenario1_balance_user2]
  rfl

/-- C2 (refuted, code bug): on Scenario 1 the handler returns, for user
2, two contradictory entries instead of the single entry that user 2
owes user 1 fifty, and for user 1 an empty list instead of the single
entry that user 1 is owed fifty by user 2. -/
theorem scenario1_balance_outputs :
    computeBalance scenario1 2 = some [⟨true, 50, 1⟩, ⟨false, 50, 1⟩] ∧
    computeBalance scenario1 1 = some [] :=
  ⟨scenario1_balance_user2, scenario1_balance_user1⟩

/-- C3 (refuted, code bug): user 2's output contains the entry that
user 2 owes user 1 amount 50, yet user 1's output over the same expense
list is empty — no entry saying user 1 is owed 50 by user 2 — although
50 is not within any tolerance of zero. -/
theorem symmetry_violated :
    (⟨true, 50, 1⟩ : Entry) ∈ (computeBalance scenario1 2).getD [] ∧
    computeBalance scenario1 1 = some [] ∧ (50 : ℚ) ≠ 0 := by
  refine ⟨?_, scenario1_balance_user1, by norm_num⟩
  rw [scenario1_balance_user2]
  simp

/-- C4: after accumulation the ledger carries no `(A, A)` cell, is
anti-symmetric (`balances[A][B] = -balances[B][A]`, both absent
together), and no user appears as their own counterparty in the
formatted output. -/
theorem ledger_antisym_no_self (es : List Expense) (U A B : Nat)
    (out : List Entry) (h : computeBalance es U = some out) :
    getCell (accumulate es) A A = none ∧
    getCell (accumulate es) A B = (getCell (accumulate es) B A).map (fun x => -x) ∧
    ∀ en ∈ out, en.user ≠ U := by
  have hinv := ledgerInv_accumulate es
  refine ⟨hinv.noself A, hinv.antisym A B, ?_⟩
  obtain ⟨l1, l2, h1, h2, rfl⟩ := computeBalance_some_parts h
  intro en hen
  rcases List.mem_append.1 hen with hh | hh
  · obtain ⟨v, hv⟩ := loop1_user_mem h1 en hh
    intro hc
    rw [hc] at hv
    cases hg : getRow (accumulate es) U with
    | none => rw [hg] at hv; simp at hv
    | some r =>
      rw [hg] at hv
      obtain ⟨w, hw⟩ := rowGet_isSome_of_mem hv
      have hcell : getCell (accumulate es) U U = some w := by
        unfold getCell
        rw [hg]
        simpa using hw
      rw [hinv.noself U] at hcell
      simp at hcell
  · exact loop2_user_ne h2 en hh

theorem ledger_antisym_no_self_witness :
    getCell (accumulate scenario1) 1 1 = none ∧
    getCell (accumulate scenario1) 1 2
      = (getCell (accumulate scenario1) 2 1).map (fun x => -x) ∧
    ∀ en ∈ [(⟨true, 50, 1⟩ : Entry), ⟨false, 50, 1⟩], en.user ≠ 2 :=
  ledger_antisym_no_self scenario1 2 1 2 [⟨true, 50, 1⟩, ⟨false, 50, 1⟩]
    scenario1_balance_user2

/-- C5: conservation — summing, over every user with a ledger row, the
user's net position (amount owed to them minus amount they owe, as
accumulated) gives zero; and each user owns at most one row. -/
theorem net_positions_sum_zero (es : List Expense) :
    (((accumulate es).map (fun pr => netPosition pr.2)).sum = 0) ∧
    (outerKeys (accumulate es)).Nodup := by
  refine ⟨?_, nodup_outerKeys_accumulate es⟩
  rw [netPosition_sum_eq_neg_ledgerSum, ledgerSum_accumulate]
  ring

/-- C6: an expense whose payer is its sole participant writes nothing
into the ledger, yields an empty balance for every user when alone, and
appending it to any expense list leaves every user's balance output
unchanged. -/
theorem self_expense_inert (es : List Expense) (e : Expense) (U : Nat)
    (h : e.participants = [e.paidBy]) :
    processExpense (accumulate es) e = accumulate es ∧
    computeBalance [e] U = some [] ∧
    computeBalance (es ++ [e]) U = computeBalance es U := by
  refine ⟨processExpense_self_only h _, ?_,
    computeBalance_append_of_inert (processExpense_self_only h _)⟩
  have hacc : accumulate [e] = [] := by
    unfold accumulate
    simp only [List.foldl_cons, List.foldl_nil]
    exact processExpense_self_only h []
  unfold computeBalance
  rw [hacc]
  rfl

theorem self_expense_inert_witness :
    processExpense (accumulate scenario1) soloExpense = accumulate scenario1 ∧
    computeBalance [soloExpense] 2 = some [] ∧
    computeBalance (scenario1 ++ [soloExpense]) 2 = computeBalance scenario1 2 :=
  self_expense_inert scenario1 soloExpense 2 rfl

/-- C7 (refuted): the computation does not fail closed on malformed
input: with a malformed expense (no participants, non-positive amount)
in the list, it still returns a normal (partial, best-effort) balance
response instead of an error. -/
theorem malformed_not_rejected :
    (∃ e ∈ badExpense :: scenario1, e.participants = [] ∨ e.amount ≤ 0) ∧
    computeBalance (badExpense :: scenario1) 2
      = some [⟨true, 50, 1⟩, ⟨false, 50, 1⟩] := by
  constructor
  · exact ⟨badExpense, List.mem_cons_self _ _, Or.inl rfl⟩
  · norm_num [computeBalance, accumulate, processExpense, updatePair, addToCell,
      getRow, setRow, rowGet, rowSet, loop1, loop2, lookupUser, truthyCell,
      scenario1, badExpense, List.find?]
    decide

/-- C7 as the code behaves: no validation happens; an expense with zero
participants contributes nothing and is silently skipped (the response
equals the one computed without it), and the computation always returns
a result — it never rejects. -/
theorem no_validation_silently_skips (es : List Expense) (e : Expense)
    (U : Nat) (h : e.participants = []) :
    computeBalance (es ++ [e]) U = computeBalance es U ∧
    ∃ out, computeBalance es U = some out :=
  ⟨computeBalance_append_of_inert (processExpense_empty h _),
    computeBalance_total es U⟩

theorem no_validation_silently_skips_witness :
    computeBalance (scenario1 ++ [badExpense]) 2 = computeBalance scenario1 2 ∧
    ∃ out, computeBalance scenario1 2 = some out :=
  no_validation_silently_skips scenario1 badExpense 2 rfl

/-- C8: an expense in which the requesting user is neither payer nor
participant has no effect on that user's balance response: appending it
to any expense list leaves the response identical. -/
theorem unrelated_expense_no_effect (es : List Expense) (e : Expense)
    (U : Nat) (hpayer : e.paidBy ≠ U) (hparts : U ∉ e.participants) :
    computeBalance (es ++ [e]) U = computeBalance es U :=
  computeBalance_append_unrelated hpayer hparts

theorem unrelated_expense_no_effect_witness :
    computeBalance (scenario1 ++ [otherExpense]) 2 = computeBalance scenario1 2 :=
  unrelated_expense_no_effect scenario1 otherExpense 2 (by decide) (by decide)

/-- C10 (refuted in its justification): a well-formed list in which user
2 participates but never pays gives user 2 a nonzero accumulated amount,
yet no expense has user 2 as payer — the nonzero-net-implies-payer step
of the claim is false. -/
theorem nonzero_net_without_payer :
    WellFormed scenario1 ∧
    getCell (accumulate scenario1) 1 2 = some (-50) ∧
    ¬∃ e ∈ scenario1, e.paidBy = 2 := by
  refine ⟨wellFormed_scenario1, scenario1_cell_12, ?_⟩
  rintro ⟨e, he, hpay⟩
  simp only [scenario1, List.mem_singleton] at he
  subst he
  simp at hpay

/-- C10 as the code behaves: the formatting phase never throws — an
entry is only emitted for a counterparty that appears in some expense of
the list (as payer or participant), and for such an identifier both
`find` scans of the lookup succeed. -/
theorem formatting_never_throws (es : List Expense) (U : Nat)
    (_h : WellFormed es) : ∃ out, computeBalance es U = some out :=
  computeBalance_total es U

theorem formatting_never_throws_witness :
    ∃ out, computeBalance scenario1 2 = some out :=
  formatting_never_throws scenario1 2 wellFormed_scenario1

theorem monthly_stats_correct_witness :
    (monthlyStats statsScenario).length ≤ 12 ∧
    ((10 : ℚ) = monthTotal statsScenario (2024, 13) ∧
      (2024, 13) ∈ monthBuckets statsScenario) ∧
    bucketGe (2024, 13) (2024, 1) = true := by
  have w := monthly_stats_correct statsScenario
  refine ⟨w.1, w.2.1 (2024, 13) 10 ?_, w.2.2.2.2 (2024, 1) ?_ ?_ ((2024, 13), 10) ?_⟩
  · rw [statsScenario_eval]
    simp
  · decide
  · rw [statsScenario_eval]
    decide
  · rw [statsScenario_eval]
    simp
